import Mathlib

/-!
Shallow embedding of the chordpro2freeshow transformation core
(src/parsers.py, src/models.py, src/processor.py, src/utils.py, src/config.py).

Modelling conventions, applied uniformly:

* Python strings are Lean `String`s; character-level scanning is done on
  `List Char` (`String.data`).
* Python's Unicode whitespace class `\s` (used both by `str.strip()` and by
  the regular expressions of the source) is the predicate `isSpace` below,
  listing exactly the code points Python's `re` module treats as whitespace
  for `str` patterns.
* Python's `\d` and the letter classes of the label pattern are modelled over
  their ASCII ranges (plus the accented letters the source pattern lists
  explicitly); likewise `str.lower()` / `str.title()` are modelled with the
  ASCII case maps, which agree with Python on every character the source's
  fixed vocabulary uses.
* MD5 digests appear in the source only as equality keys (content hashes,
  slide ids, chord ids).  They are modelled by their pre-images: the content
  hash of a section is the joined non-comment content string itself, and a
  slide id is the triple (type, index, raw_content) that the source
  concatenates and hashes.  Digest collisions are outside the embedding.
* `dict` values of Python 3.7+ are association lists with insertion order and
  last-write-wins update (`insertAssoc`), looked up with `lookupAssoc`.
* Wall-clock timestamps, JSON serialisation and file I/O of
  `generate_freeshow_file` are outside the embedding; `buildDeck` models the
  in-memory show structure that function assembles.
-/

/-- Code points matched by Python's `\s` for `str` patterns (also the set
removed by `str.strip()`): ASCII whitespace, the C1 separators, NEL,
no-break space, ogham space mark, the U+2000 block, line/paragraph
separators, narrow no-break space, medium mathematical space and
ideographic space. -/
def isSpace (c : Char) : Bool :=
  c = ' ' || c = '\t' || c = '\n' || c = '\x0b' || c = '\x0c' || c = '\r' ||
  c = '\x1c' || c = '\x1d' || c = '\x1e' || c = '\x1f' || c = '\u0085' ||
  c = '\u00A0' || c = '\u1680' ||
  ('\u2000' ≤ c && c ≤ '\u200A') ||
  c = '\u2028' || c = '\u2029' || c = '\u202F' || c = '\u205F' || c = '\u3000'

/-- The French double punctuation marks of `DOUBLE_PUNCT_PATTERN`:
`;`, `:`, `!`, `?` and the closing guillemet U+00BB. -/
def isMark (c : Char) : Bool :=
  c = ';' || c = ':' || c = '!' || c = '?' || c = '\u00BB'

/-- Non-breaking space U+00A0 (`FrenchPunctuationHandler.NBSP`). -/
def nbsp : Char := '\u00A0'

/-- Opening guillemet U+00AB. -/
def oguil : Char := '\u00AB'

/-- One pass of `DOUBLE_PUNCT_PATTERN.sub` (src/utils.py line 174), i.e.
`re.sub` with pattern whitespace-run-then-mark and replacement NBSP-then-mark.
Since `\s*` also matches the empty run and marks are themselves not
whitespace, the substitution replaces every maximal whitespace run that is
immediately followed by a mark, together with that mark, by a non-breaking
space and the mark — and inserts a non-breaking space before a mark with no
whitespace in front of it.  This is realised by a right-to-left fold whose
Bool component records whether the already processed suffix begins with a
mark's absorption zone: a mark emits the non-breaking space and sets the
flag, whitespace under the flag is absorbed (it belongs to the replaced run),
and any other character clears the flag. -/
def subDoublePunctGo : List Char → List Char × Bool
  | [] => ([], false)
  | c :: cs =>
    let r := subDoublePunctGo cs
    if isMark c then (nbsp :: c :: r.1, true)
    else if isSpace c then (if r.2 then (r.1, true) else (c :: r.1, false))
    else (c :: r.1, false)

/-- The double-punctuation pass itself. -/
def subDoublePunct (l : List Char) : List Char := (subDoublePunctGo l).1

/-- One pass of `OPENING_GUILLEMETS_PATTERN.sub` (src/utils.py line 177):
each opening guillemet together with the maximal following whitespace run
(`(«)\s*`, possibly empty) is replaced by the guillemet followed by a
non-breaking space.  Left-to-right scan; the Bool records whether the scan
is inside the whitespace run following a guillemet, which is dropped. -/
def subGuillemetsGo : Bool → List Char → List Char
  | _, [] => []
  | skipWs, c :: cs =>
    if skipWs && isSpace c then subGuillemetsGo true cs
    else if c = oguil then oguil :: nbsp :: subGuillemetsGo true cs
    else c :: subGuillemetsGo false cs

/-- The opening-guillemets pass itself. -/
def subGuillemets (l : List Char) : List Char := subGuillemetsGo false l

/-- `FrenchPunctuationHandler.fix_french_punctuation` (src/utils.py): the double
punctuation pass followed by the opening-guillemets pass.  (The `not text`
guard of the source returns the empty string unchanged, which coincides with
what the two passes compute on it.) -/
def fix_french_punctuation (s : String) : String :=
  ⟨subGuillemets (subDoublePunct s.data)⟩

/-- ASCII decimal digits, modelling `\d` of the source patterns. -/
def isAsciiDigit (c : Char) : Bool := '0' ≤ c && c ≤ '9'

/-- A chord position as built by `ChordProParser.parse_chord_line`
(src/models.py `ChordPosition`).  The 5-character truncated MD5 id
`md5(chord + original_pos)` is modelled by its pre-image, the pair
(symbol, original offset). -/
structure ChordPosition where
  id : List Char × Nat
  pos : Nat
  key : List Char
deriving Repr, DecidableEq

/-- A parsed lyric line (src/models.py `ParsedLine`). -/
structure ParsedLine where
  text : List Char
  chords : List ChordPosition
deriving Repr, DecidableEq

/-- All matches of the chord pattern `\[([^\]]+)\]` in scan order, each as
(original offset, symbol), modelling `self.chord_pattern.finditer(line)` of
src/parsers.py.  At an opening bracket the greedy `[^\]]+` takes the maximal
run of non-`]` characters and succeeds exactly when that run is non-empty and
followed by `]` (no shorter run can be, since the run contains no `]`);
the engine then resumes after the closing bracket, and on failure it moves
one character right.  Realised as a left-to-right scan: the state holds,
inside a candidate match, its start offset and the reversed symbol characters
read so far.  A failed candidate (`[]`, or end of input while open) contains
no `[` whose rescan could start a match that the scan misses, because a match
also needs a later `]`, which the failure rules out before the current
position. -/
def chordScanGo : Option (Nat × List Char) → Nat → List Char → List (Nat × List Char)
  | _, _, [] => []
  | none, i, c :: rest =>
    if c = '[' then chordScanGo (some (i, [])) (i + 1) rest
    else chordScanGo none (i + 1) rest
  | some (start, buf), i, c :: rest =>
    if c = ']' then
      match buf with
      | [] => chordScanGo none (i + 1) rest
      | _ :: _ => (start, buf.reverse) :: chordScanGo none (i + 1) rest
    else chordScanGo (some (start, c :: buf)) (i + 1) rest

/-- The chord matches of a line, scanning from a given base offset. -/
def chordScan (l : List Char) (i : Nat) : List (Nat × List Char) :=
  chordScanGo none i l

/-- `self.chord_pattern.sub('', line)`: the line with every bracket-notation
chord substring removed, with the same match discipline as `chordScanGo`;
the characters of a failed candidate are emitted verbatim. -/
def stripChordsGo : Option (List Char) → List Char → List Char
  | none, [] => []
  | some buf, [] => '[' :: buf.reverse
  | none, c :: rest =>
    if c = '[' then stripChordsGo (some []) rest
    else c :: stripChordsGo none rest
  | some buf, c :: rest =>
    if c = ']' then
      match buf with
      | [] => '[' :: ']' :: stripChordsGo none rest
      | _ :: _ => stripChordsGo none rest
    else stripChordsGo (some (c :: buf)) rest

/-- The chord-stripped text of a line. -/
def stripChords (l : List Char) : List Char :=
  stripChordsGo none l

/-- `re.sub(r'^\d+\.\s*', '', clean_text)`: remove one leading numeric list
marker — one or more digits, a dot, and any following whitespace run. -/
def stripLeadingNumber (s : List Char) : List Char :=
  let ds := s.takeWhile isAsciiDigit
  if ds.isEmpty then s
  else
    match s.drop ds.length with
    | '.' :: r => r.dropWhile isSpace
    | _ => s

/-- The chord list of `parse_chord_line`: the k-th match (original offset i,
symbol sym) becomes a `ChordPosition` whose `pos` is i minus the summed
bracket-notation length `len(sym)+2` of all earlier matches, the accumulator
`acc`.  Natural subtraction realises the `max(0, adjusted_pos)` clamp of the
source. -/
def buildChords : List (Nat × List Char) → Nat → List ChordPosition
  | [], _ => []
  | (i, sym) :: rest, acc =>
    { id := (sym, i), pos := i - acc, key := sym } :: buildChords rest (acc + sym.length + 2)

/-- `ChordProParser.parse_chord_line` (src/parsers.py lines 232-272) on a
character list: collect all chord matches with adjusted positions, strip the
bracket notation from the text, then strip a leading numeric list marker. -/
def parse_chord_lineL (line : List Char) : ParsedLine :=
  { text := stripLeadingNumber (stripChords line),
    chords := buildChords (chordScan line 0) 0 }

/-- `ChordProParser.parse_chord_line` on a string. -/
def parse_chord_line (line : String) : ParsedLine :=
  parse_chord_lineL line.data

/-- Python `str.strip()` on a character list: remove leading and trailing
whitespace. -/
def pyStripL (l : List Char) : List Char :=
  ((l.dropWhile isSpace).reverse.dropWhile isSpace).reverse

/-- Python `str.strip()` on a string. -/
def pyStrip (s : String) : String := ⟨pyStripL s.data⟩

/-- Boolean list-prefix test, modelling Python `str.startswith`. -/
def startsWithL : List Char → List Char → Bool
  | [], _ => true
  | _ :: _, [] => false
  | a :: as, b :: bs => a = b && startsWithL as bs

/-- Boolean substring test, modelling Python's `key in text`. -/
def containsL (n : List Char) : List Char → Bool
  | [] => startsWithL n []
  | c :: t => startsWithL n (c :: t) || containsL n t

/-- Python `str.lower()` (ASCII case map; the accented letters of the label
pattern are already lowercase and are fixed by it, as in Python). -/
def pyLowerL (l : List Char) : List Char := l.map Char.toLower

/-- Python `str.title()`: the first character of each run of ASCII letters is
upper-cased, the rest of the run lower-cased.  The Bool argument records
whether the previous character was a letter. -/
def pyTitleGo : Bool → List Char → List Char
  | _, [] => []
  | prev, c :: t =>
    if c.isAlpha then
      (if prev then c.toLower else c.toUpper) :: pyTitleGo true t
    else c :: pyTitleGo false t

/-- Python `str.title()` on a string. -/
def pyTitle (s : String) : String := ⟨pyTitleGo false s.data⟩

/-- Characters of the leading group of the label pattern
`([a-zA-Zéèêàâùû\s]+)\s*(\d+|[a-zA-Z])$` of `_parse_section_info`. -/
def isLabelWordChar (c : Char) : Bool :=
  (('a' ≤ c && c ≤ 'z') || ('A' ≤ c && c ≤ 'Z')) ||
  c = 'é' || c = 'è' || c = 'ê' || c = 'à' ||
  c = 'â' || c = 'ù' || c = 'û' || isSpace c

/-- ASCII letters, the second alternative `[a-zA-Z]` of the trailing group. -/
def isAsciiLetter (c : Char) : Bool :=
  ('a' ≤ c && c ≤ 'z') || ('A' ≤ c && c ≤ 'Z')

/-- The match of `re.match(r'([a-zA-Zéèêàâùû\s]+)\s*(\d+|[a-zA-Z])$', l)`,
returning the two groups.  Because the trailing group is anchored at the end,
a match ends with either the maximal non-empty trailing digit run (`\d+`
greedy, preceded only by word-class characters, which exclude digits) or a
single final ASCII letter; in both cases the greedy leading group takes all
remaining characters before it, so it must be non-empty and consist of
word-class characters only (the optional `\s*` in between can always be
absorbed by the leading group, whose class contains all whitespace).
That `$` would also match before a final newline is immaterial here: the
pattern is only applied to labels taken from whitespace-stripped lines. -/
def labelMatch (l : List Char) : Option (List Char × List Char) :=
  match l.getLast? with
  | none => none
  | some last =>
    if isAsciiDigit last then
      let ds := (l.reverse.takeWhile isAsciiDigit).reverse
      let a := l.take (l.length - ds.length)
      if !a.isEmpty && a.all isLabelWordChar then some (a, ds) else none
    else if isAsciiLetter last then
      let a := l.dropLast
      if !a.isEmpty && a.all isLabelWordChar then some (a, [last]) else none
    else none

/-- `ProcessorConfig.label_to_type_map` (src/config.py lines 62-73), in
insertion order. -/
def label_to_type_map : List (String × String) :=
  [("refrain", "chorus"), ("chorus", "chorus"),
   ("strophe", "verse"), ("verse", "verse"),
   ("pont", "bridge"), ("bridge", "bridge"),
   ("introduction", "intro"), ("intro", "intro"),
   ("fin", "outro"), ("outro", "outro")]

/-- The lookup text `type_part` of `_parse_section_info`: the stripped first
group when the ordinal pattern matches the lowercased label, else the whole
lowercased label. -/
def lookup_text (label : String) : List Char :=
  match labelMatch (pyLowerL label.data) with
  | some (a, _) => pyStripL a
  | none => pyLowerL label.data

/-- The number group of `_parse_section_info`: the trailing ordinal when the
pattern matches, else `None`. -/
def label_number (label : String) : Option String :=
  match labelMatch (pyLowerL label.data) with
  | some (_, d) => some ⟨d⟩
  | none => none

/-- The section-info record returned by `ChordProParser._parse_section_info`. -/
structure SectionInfo where
  name : String
  type : String
  number : Option String
deriving Repr, DecidableEq

/-- `ChordProParser._parse_section_info` (src/parsers.py lines 174-211):
defaults are the title-cased keyword, the raw keyword and no ordinal; the
`if label:` guard of the source also takes the default path for an empty
label (Python truthiness); otherwise the label overrides the name, may carry
a trailing ordinal, and its lookup text is
matched as a substring against `label_to_type_map` in table order, the first
hit giving the canonical type. -/
def parse_section_info (block_type : String) (label : Option String) : SectionInfo :=
  match label with
  | none =>
    { name := pyTitle block_type, type := block_type, number := none }
  | some lab =>
    if lab = "" then
      { name := pyTitle block_type, type := block_type, number := none }
    else
      let tp := lookup_text lab
      let stype := match label_to_type_map.find? (fun kv => containsL kv.1.data tp) with
        | some kv => kv.2
        | none => block_type
      { name := lab, type := stype, number := label_number lab }

/-- A parsed section (src/models.py `ChordProSection`). -/
structure ChordProSection where
  name : String
  type : String
  number : Option String
  content : List String
  raw_content : String
deriving Repr, DecidableEq

/-- `ChordProSection.get_content_hash` (src/models.py lines 47-62): the MD5
digest of the non-comment content lines joined by newlines, modelled by its
pre-image, the joined string itself. -/
def get_content_hash (s : ChordProSection) : String :=
  String.intercalate "\n"
    (s.content.filter (fun l => !(startsWithL ("\x7bc:".data) (pyStripL l.data))))

/-- Index of the last closing brace in a character list, if any. -/
def lastBrace (l : List Char) : Option Nat :=
  match l.reverse.findIdx? (fun c => c = '\x7d') with
  | some r => some (l.length - 1 - r)
  | none => none

/-- The match of the generic directive pattern
`re.match(r'\x7b([^:]+)(?::(.*))?\x7d', s)`, returning (group 1, group 2).
After the opening brace the greedy `[^:]+` runs to the first colon (or the
end).  If a colon follows, the optional group is tried first: `.*` greedily
takes the rest of the line up to a newline and backtracks to the last closing
brace before it; only if there is none does backtracking shorten group 1,
which then must be followed directly by a closing brace — the last one inside
the colon-free prefix (its position must leave group 1 non-empty).  Without
any colon only the latter path exists. -/
def matchDirective (s : List Char) : Option (List Char × Option (List Char)) :=
  match s with
  | '\x7b' :: t =>
    let a := t.takeWhile (fun c => !(c = ':'))
    if a.isEmpty then none
    else if a.length = t.length then
      match lastBrace a with
      | some k => if 1 ≤ k then some (a.take k, none) else none
      | none => none
    else
      let b := (t.drop (a.length + 1)).takeWhile (fun c => !(c = '\n'))
      match lastBrace b with
      | some j => some (a, some (b.take j))
      | none =>
        match lastBrace a with
        | some k => if 1 ≤ k then some (a.take k, none) else none
        | none => none
  | _ => none

/-- Ordered association-list update with last-write-wins semantics, modelling
`d[key] = value` on a Python dict. -/
def insertAssoc (k v : String) : List (String × String) → List (String × String)
  | [] => [(k, v)]
  | (k', v') :: t => if k' = k then (k, v) :: t else (k', v') :: insertAssoc k v t

/-- First-match association-list lookup, modelling `d.get(key)`. -/
def lookupAssoc {α β : Type} [DecidableEq α] : List (α × β) → α → Option β
  | [], _ => none
  | (k, v) :: t, a => if k = a then some v else lookupAssoc t a

/-- The loop state of `ChordProParser.parse_file` (src/parsers.py lines
105-171): the directive map, the emitted sections, and the pending label,
content, section info and in-section flag. -/
structure PState where
  metadata : List (String × String)
  sections : List ChordProSection
  label : Option String
  content : List String
  info : Option SectionInfo
  insec : Bool
deriving Repr, DecidableEq

/-- The initial parse state. -/
def initState : PState :=
  { metadata := [], sections := [], label := none, content := [],
    info := none, insec := false }

/-- `ChordProParser._create_section`: build a `ChordProSection` from the
current section info and content lines (`raw_content` is the newline join). -/
def mkSection (info : SectionInfo) (content : List String) : ChordProSection :=
  { name := info.name, type := info.type, number := info.number,
    content := content, raw_content := String.intercalate "\n" content }

/-- One iteration of the `parse_file` line loop (src/parsers.py lines
118-170): dispatch on the stripped line — comment label, start of block, end
of block, generic directive, or plain content. -/
def stepLine (st : PState) (line : String) : PState :=
  let sl := pyStripL line.data
  if startsWithL ("\x7bc:".data) sl then
    { st with
      label := some ⟨pyStripL ((sl.drop 3).dropLast)⟩,
      content := if st.insec then st.content ++ [line] else st.content }
  else if startsWithL ("\x7bstart_of_".data) sl then
    { metadata := st.metadata,
      sections :=
        match st.info with
        | some inf =>
          if st.insec then st.sections ++ [mkSection inf st.content] else st.sections
        | none => st.sections,
      label := none,
      content := [],
      info := some (parse_section_info ⟨pyStripL ((sl.drop 10).dropLast)⟩ st.label),
      insec := true }
  else if startsWithL ("\x7bend_of_".data) sl then
    match st.info with
    | some inf =>
      if st.insec then
        { st with
          sections := st.sections ++ [mkSection inf st.content],
          insec := false, info := none, content := [] }
      else st
    | none => st
  else if startsWithL ("\x7b".data) sl then
    { st with
      metadata :=
        match matchDirective sl with
        | some (g1, g2) =>
          insertAssoc ⟨pyStripL g1⟩
            (match g2 with | some g => ⟨pyStripL g⟩ | none => "") st.metadata
        | none => st.metadata,
      content := if st.insec then st.content ++ [line] else st.content }
  else if st.insec then { st with content := st.content ++ [line] }
  else st

/-- `ChordProParser.parse_file` over an already split line list: fold the
line loop from the initial state.  A section left open at the end of the
input is not appended to `sections`. -/
def parse_file_lines (lines : List String) : PState :=
  lines.foldl stepLine initState

/-- Python `content.split('\n')` on a character list: the newline-separated
pieces, with empty pieces preserved. -/
def splitNl : List Char → List (List Char)
  | [] => [[]]
  | c :: t =>
    if c = '\n' then [] :: splitNl t
    else
      match splitNl t with
      | h :: r => (c :: h) :: r
      | [] => [[c]]

/-- `ChordProParser.parse_file` on the full document text
(`content.split('\n')` and the line loop). -/
def parse_file (content : String) : PState :=
  parse_file_lines ((splitNl content.data).map String.mk)

/-- The loop of `ChordProParser.deduplicate_sections` (src/parsers.py lines
289-301), carrying the unique-section accumulator.  The Python
`section_map` dict maps each unique section's content hash to its index;
since only sections with fresh hashes are appended, that lookup coincides
with the index of the first unique section bearing the hash, `findIdx?`
here. -/
def dedupGo : List ChordProSection → List ChordProSection →
    List ChordProSection × List Nat
  | uniq, [] => (uniq, [])
  | uniq, s :: rest =>
    match uniq.findIdx? (fun u => get_content_hash u == get_content_hash s) with
    | some k =>
      let r := dedupGo uniq rest
      (r.1, k :: r.2)
    | none =>
      let r := dedupGo (uniq ++ [s]) rest
      (r.1, uniq.length :: r.2)

/-- `ChordProParser.deduplicate_sections`: the unique-section list and the
original-index-to-unique-index map. -/
def deduplicate_sections (sections : List ChordProSection) :
    List ChordProSection × List Nat :=
  dedupGo [] sections

/-- A slide id: the pre-image (section type, unique index, raw content) of
the truncated digest `md5(f"{section.type}{i}{section.raw_content}")` used by
`generate_freeshow_file`. -/
def SlideId : Type := String × Nat × String
deriving instance DecidableEq, Repr for SlideId

/-- A rendered line of a slide (`ParsedLine.to_freeshow_line`,
src/models.py): the chord-free display text and the chord positions.  The
fixed style/alignment constants of the JSON form are not part of the
embedding. -/
structure FLine where
  value : String
  chords : List ChordPosition
deriving Repr, DecidableEq

/-- A slide record (`ChordProProcessor._create_freeshow_slide`,
src/processor.py lines 249-301).  `stype` records the section type the
source uses to resolve `color` and `globalGroup` (in the default
configuration `globalGroup` is that type verbatim for every canonical
type). -/
structure SlideRec where
  group : String
  color : String
  globalGroup : Option String
  stype : String
  lines : List FLine
deriving Repr, DecidableEq

/-- `ProcessorConfig.section_colors` (src/config.py lines 40-48). -/
def section_colors : List (String × String) :=
  [("verse", ""), ("chorus", "#f525d2"), ("bridge", "#f52598"),
   ("pre_chorus", "#25d2f5"), ("tag", "#f5d225"), ("intro", ""), ("outro", "")]

/-- `ProcessorConfig.global_groups` (src/config.py lines 51-59). -/
def global_groups : List (String × String) :=
  [("verse", "verse"), ("chorus", "chorus"), ("bridge", "bridge"),
   ("pre_chorus", "pre_chorus"), ("tag", "tag"), ("intro", "intro"),
   ("outro", "outro")]

/-- `ChordProProcessor._create_freeshow_slide`: group is the section name,
color and global group come from the per-type tables, and every non-comment
non-blank content line is rendered through `parse_chord_line` with the
punctuation fix applied to its text when configured. -/
def mkSlide (fixp : Bool) (s : ChordProSection) : SlideRec :=
  { group := s.name,
    color := (lookupAssoc section_colors s.type).getD "",
    globalGroup := lookupAssoc global_groups s.type,
    stype := s.type,
    lines :=
      (s.content.filter (fun l =>
          !(startsWithL ("\x7bc:".data) (pyStripL l.data)) &&
          !(pyStripL l.data).isEmpty)).map
        (fun l =>
          let p := parse_chord_lineL l.data
          { value := if fixp then fix_french_punctuation ⟨p.text⟩ else ⟨p.text⟩,
            chords := p.chords })
  }

/-- The `slides` dict built by `generate_freeshow_file` lines 157-167: the
i-th unique section keyed by its slide id.  `i` is the enumeration index. -/
def mkSlides (fixp : Bool) : Nat → List ChordProSection → List (SlideId × SlideRec)
  | _, [] => []
  | i, s :: t => ((s.type, i, s.raw_content), mkSlide fixp s) :: mkSlides fixp (i + 1) t

/-- The `unique_slide_ids` list of `generate_freeshow_file`. -/
def mkSlideIds : Nat → List ChordProSection → List SlideId
  | _, [] => []
  | i, s :: t => (s.type, i, s.raw_content) :: mkSlideIds (i + 1) t

/-- The deck document assembled by `ChordProProcessor.generate_freeshow_file`
(src/processor.py lines 122-247): name, category, the `meta` fields, the
`slides` mapping and the ordered layout slide references. -/
structure Deck where
  name : String
  category : String
  meta_number : String
  meta_title : String
  meta_artist : String
  meta_author : String
  meta_composer : String
  meta_copyright : String
  meta_year : String
  meta_key : String
  slides : List (SlideId × SlideRec)
  layoutSlides : List SlideId
deriving Repr, DecidableEq

/-- A default slide id, the out-of-range fallback for list indexing (the
source's `unique_slide_ids[i]` is always in range, as proved below). -/
def dfltSlideId : SlideId := ("", 0, "")

/-- `ChordProProcessor.generate_freeshow_file` on parsed input: deduplicate
when configured (`index_map = range` otherwise), build the slides for the
unique sections, replay the index map as the layout, and populate the meta
fields from the directive map (punctuation-fixed when configured).
`filename` is the stem of the processed file. -/
def buildDeck (dedup fixp : Bool) (filename : String)
    (md : List (String × String)) (sections : List ChordProSection) : Deck :=
  let fixf := fun (s : String) => if fixp then fix_french_punctuation s else s
  let title := fixf ((lookupAssoc md "title").getD filename)
  let ur := if dedup then deduplicate_sections sections
            else (sections, List.range sections.length)
  let ids := mkSlideIds 0 ur.1
  { name := title,
    category :=
      if startsWithL ("jem".data) filename.data then
        (if containsL ("jemk".data) (pyLowerL filename.data) then "JEM Kids" else "JEM")
      else "song",
    meta_number := (lookupAssoc md "number").getD "",
    meta_title := title,
    meta_artist := fixf ((lookupAssoc md "lyricist").getD ""),
    meta_author := fixf ((lookupAssoc md "lyricist").getD ""),
    meta_composer := fixf ((lookupAssoc md "composer").getD ""),
    meta_copyright := fixf ((lookupAssoc md "copyright").getD ""),
    meta_year := (lookupAssoc md "year").getD "",
    meta_key := (lookupAssoc md "key").getD "",
    slides := mkSlides fixp 0 ur.1,
    layoutSlides := ur.2.map (fun k => ids.getD k dfltSlideId) }

/-- The per-position section types read back from a deck: each layout entry
resolved through the `slides` mapping to its slide's section type (the
deck-level counterpart of replaying `index_map`). -/
def replayTypes (d : Deck) : List String :=
  d.layoutSlides.map (fun sid =>
    ((lookupAssoc d.slides sid).map (fun r => r.stype)).getD "")

/-- A default section, the out-of-range fallback for list indexing in
statements (indices are always proved in range). -/
def dfltSection : ChordProSection :=
  { name := "", type := "", number := none, content := [], raw_content := "" }

/-- The state-dependent lower bound on emitted offsets. -/
def scanLow : Option (Nat × List Char) → Nat → Nat
  | none, i => i
  | some (start, _), _ => start

/-- The state invariant of the chord scan: inside a candidate the current
position is the start, plus the opening bracket, plus the buffered symbol
characters. -/
def scanInv : Option (Nat × List Char) → Nat → Prop
  | none, _ => True
  | some (start, buf), i => i = start + 1 + buf.length

theorem mark_not_space {c : Char} (h : isMark c = true) : isSpace c = false := by
  simp only [isMark, Bool.or_eq_true, decide_eq_true_eq] at h
  rcases h with ((((h | h) | h) | h) | h) <;> subst h <;> decide

theorem mark_ne_oguil {c : Char} (h : isMark c = true) : (c = oguil) = False := by
  simp only [isMark, Bool.or_eq_true, decide_eq_true_eq] at h
  rcases h with ((((h | h) | h) | h) | h) <;> subst h <;> simp <;> decide

theorem space_ne_oguil {c : Char} (h : isSpace c = true) : (c = oguil) = False := by
  simp only [eq_iff_iff, iff_false]
  intro hc
  subst hc
  exact absurd h (by decide)

theorem nbsp_space : isSpace nbsp = true := by decide

theorem nbsp_not_mark : isMark nbsp = false := by decide

theorem nbsp_ne_oguil : (nbsp = oguil) = False := by simp; decide

theorem oguil_not_space : isSpace oguil = false := by decide

theorem oguil_not_mark : isMark oguil = false := by decide

/-- The double-punctuation pass is idempotent, with matching absorption
flags: its output normalises to itself. -/
theorem subDoublePunctGo_idem (l : List Char) :
    subDoublePunctGo (subDoublePunctGo l).1 = subDoublePunctGo l := by
  induction l with
  | nil => rfl
  | cons c cs ih =>
    by_cases hm : isMark c = true
    · simp only [subDoublePunctGo, hm, if_pos]
      have h2 : subDoublePunctGo (c :: (subDoublePunctGo cs).1) =
          (nbsp :: c :: (subDoublePunctGo (subDoublePunctGo cs).1).1, true) := by
        simp [subDoublePunctGo, hm]
      simp only [subDoublePunctGo, h2, ih, nbsp_not_mark, Bool.false_eq_true, if_neg,
        nbsp_space, if_pos]
      simp [ih]
    · by_cases hs : isSpace c = true
      · by_cases hf : (subDoublePunctGo cs).2 = true
        · simp only [subDoublePunctGo, hm, Bool.false_eq_true, if_neg, hs, if_pos, hf,
            if_true]
          have : (subDoublePunctGo cs).1 = (subDoublePunctGo cs).1 ∧ True := ⟨rfl, trivial⟩
          calc subDoublePunctGo (subDoublePunctGo cs).1 = subDoublePunctGo cs := ih
            _ = ((subDoublePunctGo cs).1, true) := by
                rw [← hf]
        · simp only [subDoublePunctGo, hm, Bool.false_eq_true, if_neg, hs, if_pos, hf,
            if_false]
          simp only [subDoublePunctGo, hm, Bool.false_eq_true, if_neg, hs, if_pos, ih, hf,
            if_false]
      · simp only [subDoublePunctGo, hm, Bool.false_eq_true, if_neg, hs]
        simp only [subDoublePunctGo, hm, Bool.false_eq_true, if_neg, hs, ih]

/-- In skip state, the guillemets pass drops the leading whitespace run and
continues in neutral state. -/
theorem subGuillemetsGo_true_eq_drop (l : List Char) :
    subGuillemetsGo true l = subGuillemetsGo false (l.dropWhile isSpace) := by
  induction l with
  | nil => rfl
  | cons c cs ih =>
    by_cases hs : isSpace c = true
    · rw [List.dropWhile_cons_of_pos (by simpa using hs)]
      simp [subGuillemetsGo, hs, ih]
    · rw [List.dropWhile_cons_of_neg hs]
      simp [subGuillemetsGo, hs]

/-- The output of the skip state never begins with whitespace. -/
theorem subGuillemetsGo_true_head :
    ∀ (l : List Char) (c : Char) (t : List Char),
      subGuillemetsGo true l = c :: t → isSpace c = false
  | [], _, _, h => by simp [subGuillemetsGo] at h
  | d :: ds, c, t, h => by
    by_cases hs : isSpace d = true
    · simp only [subGuillemetsGo, hs, Bool.and_true, if_pos] at h
      exact subGuillemetsGo_true_head ds c t h
    · by_cases hg : d = oguil
      · subst hg
        simp only [subGuillemetsGo, oguil_not_space, Bool.and_false, Bool.false_eq_true,
          if_false, if_pos] at h
        obtain ⟨h1, -⟩ := List.cons_eq_cons.mp h
        subst h1
        exact oguil_not_space
      · simp only [subGuillemetsGo, hs, Bool.and_false, Bool.false_eq_true, if_neg, hg,
          if_false] at h
        obtain ⟨h1, -⟩ := List.cons_eq_cons.mp h
        subst h1
        simpa using hs

/-- When the input does not begin with whitespace the two states of the
guillemets pass agree. -/
theorem subGuillemetsGo_flag_irrel (l : List Char)
    (h : ∀ c t, l = c :: t → isSpace c = false) (b : Bool) :
    subGuillemetsGo b l = subGuillemetsGo false l := by
  cases l with
  | nil => rfl
  | cons c cs =>
    have hc := h c cs rfl
    simp [subGuillemetsGo, hc]

/-- The opening-guillemets pass is idempotent from either starting state. -/
theorem subGuillemetsGo_idem (l : List Char) :
    ∀ b, subGuillemetsGo false (subGuillemetsGo b l) = subGuillemetsGo b l := by
  induction l with
  | nil => intro b; rfl
  | cons c cs ih =>
    intro b
    by_cases hskip : (b && isSpace c) = true
    · simp only [subGuillemetsGo, hskip, if_pos]
      exact ih true
    · by_cases hg : c = oguil
      · subst hg
        have hflag : subGuillemetsGo true (subGuillemetsGo true cs) =
            subGuillemetsGo false (subGuillemetsGo true cs) :=
          subGuillemetsGo_flag_irrel _ (fun d t hdt => subGuillemetsGo_true_head cs d t hdt) true
        simp [subGuillemetsGo, oguil_not_space, nbsp_space, nbsp_ne_oguil, hflag, ih true]
      · have hc : (b && isSpace c) = false := by simpa using hskip
        simp [subGuillemetsGo, hskip, hc, hg, ih false]

/-- When the absorption flag is set, the output of the double-punctuation
pass begins with a non-breaking space and a mark, followed by a normalised
tail. -/
theorem subDoublePunctGo_flag_shape :
    ∀ (v : List Char), (subDoublePunctGo v).2 = true →
      ∃ m X, (subDoublePunctGo v).1 = nbsp :: m :: X ∧ isMark m = true ∧
        (subDoublePunctGo X).1 = X
  | [], h => by simp [subDoublePunctGo] at h
  | x :: xs, h => by
    by_cases hm : isMark x = true
    · refine ⟨x, (subDoublePunctGo xs).1, ?_, hm, ?_⟩
      · simp [subDoublePunctGo, hm]
      · have := subDoublePunctGo_idem xs
        rw [this]
    · by_cases hs : isSpace x = true
      · by_cases hf : (subDoublePunctGo xs).2 = true
        · have hv : subDoublePunctGo (x :: xs) = ((subDoublePunctGo xs).1, true) := by
            simp [subDoublePunctGo, hm, hs, hf]
          obtain ⟨m, X, h1, h2, h3⟩ := subDoublePunctGo_flag_shape xs hf
          exact ⟨m, X, by rw [hv]; exact h1, h2, h3⟩
        · simp [subDoublePunctGo, hm, hs, hf] at h
      · simp [subDoublePunctGo, hm, hs] at h

/-- Dropping the leading whitespace of a normalised list yields either a
normalised list or a mark-headed list with normalised tail. -/
theorem subDoublePunctGo_norm_drop :
    ∀ (cs : List Char), (subDoublePunctGo cs).1 = cs →
      (subDoublePunctGo (cs.dropWhile isSpace)).1 = cs.dropWhile isSpace ∨
      (∃ m X, cs.dropWhile isSpace = m :: X ∧ isMark m = true ∧
        (subDoublePunctGo X).1 = X)
  | [], _ => by simp [subDoublePunctGo]
  | x :: xs, hN => by
    by_cases hs : isSpace x = true
    · have hm : isMark x = false := by
        cases hmx : isMark x
        · rfl
        · rw [mark_not_space hmx] at hs; exact absurd hs (by simp)
      by_cases hf : (subDoublePunctGo xs).2 = true
      · have hv : subDoublePunctGo (x :: xs) = ((subDoublePunctGo xs).1, true) := by
          simp [subDoublePunctGo, hm, hs, hf]
        rw [hv] at hN
        obtain ⟨m, X, h1, h2, h3⟩ := subDoublePunctGo_flag_shape xs hf
        rw [hN] at h1
        obtain ⟨hx, hxs⟩ := List.cons_eq_cons.mp h1
        right
        refine ⟨m, X, ?_, h2, h3⟩
        rw [List.dropWhile_cons_of_pos (by simpa using hs), hxs,
          List.dropWhile_cons_of_neg (by simp [mark_not_space h2])]
      · have hv : subDoublePunctGo (x :: xs) = (x :: (subDoublePunctGo xs).1, false) := by
          simp [subDoublePunctGo, hm, hs, hf]
        rw [hv] at hN
        obtain ⟨-, hxs⟩ := List.cons_eq_cons.mp hN
        rw [List.dropWhile_cons_of_pos (by simpa using hs)]
        exact subDoublePunctGo_norm_drop xs hxs
    · left
      rw [List.dropWhile_cons_of_neg hs]
      exact hN

/-- The head of a non-empty `dropWhile` result falsifies the predicate. -/
theorem dropWhile_head_false {α : Type} {p : α → Bool} :
    ∀ (l : List α) (d : α) (v : List α), l.dropWhile p = d :: v → p d = false
  | [], _, _, h => by simp at h
  | x :: xs, d, v, h => by
    by_cases hx : p x = true
    · rw [List.dropWhile_cons_of_pos hx] at h
      exact dropWhile_head_false xs d v h
    · rw [List.dropWhile_cons_of_neg hx] at h
      obtain ⟨h1, -⟩ := List.cons_eq_cons.mp h
      subst h1
      simpa using hx

/-- The guillemets pass preserves double-punctuation normal forms (with the
absorption flag): applying the double-punctuation pass to the
guillemets-processed text of an already normalised input is the identity. -/
theorem subDP_subG_norm :
    ∀ (n : Nat) (t : List Char), t.length ≤ n → (subDoublePunctGo t).1 = t →
      subDoublePunctGo (subGuillemetsGo false t) =
        (subGuillemetsGo false t, (subDoublePunctGo t).2) := by
  intro n
  induction n with
  | zero =>
    intro t ht _
    have : t = [] := List.length_eq_zero.mp (Nat.le_zero.mp ht)
    subst this
    rfl
  | succ n ih =>
    intro t ht hN
    match t with
    | [] => rfl
    | c :: cs =>
      have hcs : cs.length ≤ n := by
        simp only [List.length_cons] at ht
        omega
      by_cases hm : isMark c = true
      · exfalso
        have h1 : nbsp :: c :: (subDoublePunctGo cs).1 = c :: cs := by
          simpa [subDoublePunctGo, hm] using hN
        have h2 := (List.cons_eq_cons.mp h1).1
        rw [← h2] at hm
        simpa [nbsp_not_mark] using hm
      · by_cases hs : isSpace c = true
        · by_cases hf : (subDoublePunctGo cs).2 = true
          · have hv : subDoublePunctGo (c :: cs) = ((subDoublePunctGo cs).1, true) := by
              simp [subDoublePunctGo, hm, hs, hf]
            rw [hv] at hN ⊢
            obtain ⟨m, X, h1, h2, h3⟩ := subDoublePunctGo_flag_shape cs hf
            rw [hN] at h1
            obtain ⟨hc1, hc2⟩ := List.cons_eq_cons.mp h1
            subst hc1
            subst hc2
            have hX : X.length ≤ n := by
              simp only [List.length_cons] at ht
              omega
            have hIH := ih X hX h3
            have hg1 : subGuillemetsGo false (nbsp :: m :: X) =
                nbsp :: m :: subGuillemetsGo false X := by
              simp [subGuillemetsGo, nbsp_ne_oguil, mark_ne_oguil h2]
            rw [hg1]
            simp [subDoublePunctGo, nbsp_not_mark, nbsp_space, h2, hIH]
          · have hv : subDoublePunctGo (c :: cs) =
                (c :: (subDoublePunctGo cs).1, false) := by
              simp [subDoublePunctGo, hm, hs, hf]
            rw [hv] at hN ⊢
            have hNcs : (subDoublePunctGo cs).1 = cs := (List.cons_eq_cons.mp hN).2
            have hIH := ih cs hcs hNcs
            have hg1 : subGuillemetsGo false (c :: cs) = c :: subGuillemetsGo false cs := by
              simp [subGuillemetsGo, space_ne_oguil hs]
            rw [hNcs, hg1]
            simp [subDoublePunctGo, hm, hs, hIH, hf]
        · have hv : subDoublePunctGo (c :: cs) =
              (c :: (subDoublePunctGo cs).1, false) := by
            simp [subDoublePunctGo, hm, hs]
          rw [hv] at hN ⊢
          have hNcs : (subDoublePunctGo cs).1 = cs := (List.cons_eq_cons.mp hN).2
          rw [hNcs]
          by_cases hg : c = oguil
          · subst hg
            have hgt : subGuillemetsGo false (oguil :: cs) =
                oguil :: nbsp :: subGuillemetsGo false (cs.dropWhile isSpace) := by
              simp [subGuillemetsGo, subGuillemetsGo_true_eq_drop, oguil_not_space]
            rw [hgt]
            have hwlen : (cs.dropWhile isSpace).length ≤ n :=
              le_trans (List.dropWhile_sublist isSpace).length_le hcs
            rcases subDoublePunctGo_norm_drop cs hNcs with hwN | ⟨m, X, hw, h2, h3⟩
            · have hIHw := ih (cs.dropWhile isSpace) hwlen hwN
              have hwflag : (subDoublePunctGo (cs.dropWhile isSpace)).2 = false := by
                match hww : cs.dropWhile isSpace with
                | [] => rfl
                | d :: v =>
                  have hd : isSpace d = false := dropWhile_head_false cs d v hww
                  have hdm : isMark d = false := by
                    cases hdm : isMark d
                    · rfl
                    · exfalso
                      rw [hww] at hwN
                      have : nbsp :: d :: (subDoublePunctGo v).1 = d :: v := by
                        simpa [subDoublePunctGo, hdm] using hwN
                      have hnd := (List.cons_eq_cons.mp this).1
                      rw [← hnd] at hd
                      simpa [nbsp_space] using hd
                  simp [subDoublePunctGo, hdm, hd]
              rw [hwflag] at hIHw
              simp [subDoublePunctGo, oguil_not_mark, oguil_not_space, nbsp_not_mark,
                nbsp_space, hIHw]
            · have hXlen : X.length ≤ n := by
                have : (cs.dropWhile isSpace).length ≤ n := hwlen
                rw [hw] at this
                simp only [List.length_cons] at this
                omega
              have hIHX := ih X hXlen h3
              rw [hw]
              have hgw : subGuillemetsGo false (m :: X) = m :: subGuillemetsGo false X := by
                simp [subGuillemetsGo, mark_ne_oguil h2]
              rw [hgw]
              simp [subDoublePunctGo, oguil_not_mark, oguil_not_space, nbsp_not_mark,
                nbsp_space, h2, hIHX]
          · have hg1 : subGuillemetsGo false (c :: cs) = c :: subGuillemetsGo false cs := by
              simp [subGuillemetsGo, hg]
            rw [hg1]
            have hIH := ih cs hcs hNcs
            simp [subDoublePunctGo, hm, hs, hIH]

/-- Claim C3: the punctuation normalizer is idempotent — for every string x,
`fix_french_punctuation (fix_french_punctuation x) = fix_french_punctuation x`
— and it maps the empty string to itself unchanged. -/
theorem claim_C3_fix_french_punctuation_idempotent :
    ∀ x : String,
      fix_french_punctuation (fix_french_punctuation x) = fix_french_punctuation x ∧
      fix_french_punctuation "" = "" := by
  intro x
  constructor
  · have hnorm : (subDoublePunctGo (subDoublePunctGo x.data).1).1 =
        (subDoublePunctGo x.data).1 := by
      rw [subDoublePunctGo_idem]
    have hcross := subDP_subG_norm (subDoublePunctGo x.data).1.length
      (subDoublePunctGo x.data).1 le_rfl hnorm
    show (⟨subGuillemetsGo false
      (subDoublePunctGo (subGuillemetsGo false (subDoublePunctGo x.data).1)).1⟩ : String) = _
    rw [hcross]
    rw [subGuillemetsGo_idem]
    rfl
  · rfl

/-- `buildChords` yields one `ChordPosition` per match. -/
theorem buildChords_length :
    ∀ (ms : List (Nat × List Char)) (acc : Nat),
      (buildChords ms acc).length = ms.length
  | [], _ => rfl
  | (i, sym) :: rest, acc => by
    simp [buildChords, buildChords_length rest]


/-- Every emitted match offset is at least the state's lower bound. -/
theorem chordScanGo_offset_le :
    ∀ (l : List Char) (st : Option (Nat × List Char)) (i : Nat),
      scanInv st i → ∀ m ∈ chordScanGo st i l, scanLow st i ≤ m.1
  | [], st, i, _, m, hm => by cases st <;> simp [chordScanGo] at hm
  | c :: rest, none, i, _, m, hm => by
    by_cases hc : c = '['
    · simp only [chordScanGo, hc, if_pos] at hm
      have := chordScanGo_offset_le rest (some (i, [])) (i + 1) (by simp [scanInv]) m hm
      simpa [scanLow] using this
    · simp only [chordScanGo, hc, if_neg, if_false] at hm
      have := chordScanGo_offset_le rest none (i + 1) trivial m hm
      simp only [scanLow] at this ⊢
      omega
  | c :: rest, some (start, buf), i, hinv, m, hm => by
    by_cases hc : c = ']'
    · match buf with
      | [] =>
        simp only [chordScanGo, hc, if_pos] at hm
        have := chordScanGo_offset_le rest none (i + 1) trivial m hm
        simp only [scanLow] at this ⊢
        simp only [scanInv, List.length_nil] at hinv
        omega
      | b :: bs =>
        simp only [chordScanGo, hc, if_pos, List.mem_cons] at hm
        rcases hm with hm | hm
        · subst hm
          simp [scanLow]
        · have := chordScanGo_offset_le rest none (i + 1) trivial m hm
          simp only [scanLow] at this ⊢
          simp only [scanInv] at hinv
          omega
    · simp only [chordScanGo, hc, if_neg, if_false] at hm
      have := chordScanGo_offset_le rest (some (start, c :: buf)) (i + 1)
        (by simp only [scanInv] at hinv ⊢; simp [hinv]; omega) m hm
      simpa [scanLow] using this

/-- Successive chord matches are separated by at least the bracket-notation
length of the earlier match. -/
theorem chordScanGo_chain :
    ∀ (l : List Char) (st : Option (Nat × List Char)) (i : Nat),
      scanInv st i →
      List.Chain' (fun a b => a.1 + a.2.length + 2 ≤ b.1) (chordScanGo st i l)
  | [], st, _, _ => by cases st <;> simp [chordScanGo]
  | c :: rest, none, i, _ => by
    by_cases hc : c = '['
    · simp only [chordScanGo, hc, if_pos]
      exact chordScanGo_chain rest (some (i, [])) (i + 1) (by simp [scanInv])
    · simp only [chordScanGo, hc, if_neg, if_false]
      exact chordScanGo_chain rest none (i + 1) trivial
  | c :: rest, some (start, buf), i, hinv => by
    by_cases hc : c = ']'
    · match buf with
      | [] =>
        simp only [chordScanGo, hc, if_pos]
        exact chordScanGo_chain rest none (i + 1) trivial
      | b :: bs =>
        simp only [chordScanGo, hc, if_pos]
        refine List.Chain'.cons' (chordScanGo_chain rest none (i + 1) trivial) ?_
        intro y hy
        have hy' : y ∈ chordScanGo none (i + 1) rest := List.mem_of_mem_head? hy
        have h1 := chordScanGo_offset_le rest none (i + 1) trivial y hy'
        simp only [scanLow] at h1
        simp only [scanInv, List.length_cons] at hinv
        simp only [List.length_reverse, List.length_cons]
        omega
    · simp only [chordScanGo, hc, if_neg, if_false]
      exact chordScanGo_chain rest (some (start, c :: buf)) (i + 1)
        (by simp only [scanInv] at hinv ⊢; simp [hinv]; omega)

/-- Positions produced by `buildChords` are non-decreasing when the matches
are chained with their bracket gaps and start above the accumulator. -/
theorem buildChords_chain :
    ∀ (ms : List (Nat × List Char)) (acc : Nat),
      List.Chain' (fun a b => a.1 + a.2.length + 2 ≤ b.1) ms →
      (∀ x ∈ ms.head?, acc ≤ x.1) →
      List.Chain' (fun a b : ChordPosition => a.pos ≤ b.pos) (buildChords ms acc)
  | [], _, _, _ => by simp [buildChords]
  | (j, sym) :: rest, acc, hch, hacc => by
    have hj : acc ≤ j := by simpa using hacc (j, sym) (by simp)
    have hch' : List.Chain' (fun a b => a.1 + a.2.length + 2 ≤ b.1) rest :=
      (List.chain'_cons'.mp hch).2
    have hgap := (List.chain'_cons'.mp hch).1
    simp only [buildChords]
    refine List.Chain'.cons' (buildChords_chain rest (acc + sym.length + 2) hch' ?_) ?_
    · intro x hx
      have h2 : j + sym.length + 2 ≤ x.1 := by simpa using hgap x hx
      omega
    · intro y hy
      cases rest with
      | nil => simp [buildChords] at hy
      | cons x0 rest2 =>
        obtain ⟨j2, sym2⟩ := x0
        simp only [buildChords, List.head?_cons, Option.mem_def, Option.some.injEq] at hy
        subst hy
        have hg : j + sym.length + 2 ≤ j2 := by
          simpa using hgap (j2, sym2) (by simp)
        show j - acc ≤ j2 - (acc + sym.length + 2)
        omega

/-- Claim C2 counterexample: on the line `1. [C]Hi` the returned text is not
the input with the bracket notation removed — the leading numeric list marker
`1. ` is removed as well. -/
theorem claim_C2_counterexample :
    ¬ ((parse_chord_line "1. [C]Hi").text = stripChords ("1. [C]Hi").data) := by
  decide

/-- Claim C2 as amended: for every input line, `parse_chord_line` returns
exactly one `ChordPosition` per chord match, their `pos` values are
non-decreasing in emission order, and the returned text equals the input with
every bracket-notation substring removed and then a leading numeric list
marker, when present, removed as well. -/
theorem claim_C2_parse_chord_line :
    ∀ line : String,
      (parse_chord_line line).chords.length = (chordScan line.data 0).length ∧
      List.Chain' (fun a b : ChordPosition => a.pos ≤ b.pos)
        (parse_chord_line line).chords ∧
      (parse_chord_line line).text = stripLeadingNumber (stripChords line.data) := by
  intro line
  refine ⟨buildChords_length _ _, ?_, rfl⟩
  exact buildChords_chain (chordScan line.data 0) 0
    (chordScanGo_chain line.data none 0 trivial) (by simp)

theorem digit_ne_lbracket {c : Char} (h : isAsciiDigit c = true) : ¬ (c = '[') := by
  intro heq
  subst heq
  exact absurd h (by decide)

theorem space_ne_lbracket {c : Char} (h : isSpace c = true) : ¬ (c = '[') := by
  intro heq
  subst heq
  exact absurd h (by decide)

/-- Scanning past a bracket-free prefix only advances the offset. -/
theorem chordScanGo_append_free :
    ∀ (pre l : List Char) (i : Nat), (∀ c ∈ pre, ¬ (c = '[')) →
      chordScanGo none i (pre ++ l) = chordScanGo none (i + pre.length) l
  | [], l, i, _ => by simp
  | c :: pre', l, i, h => by
    have hc : ¬ (c = '[') := h c (by simp)
    have hrest : ∀ d ∈ pre', ¬ (d = '[') := fun d hd => h d (by simp [hd])
    simp only [List.cons_append, chordScanGo, hc, if_neg, if_false, List.append_eq]
    rw [chordScanGo_append_free pre' l (i + 1) hrest]
    congr 1
    simp only [List.length_cons]
    omega

/-- Shifting the base offset shifts every emitted offset. -/
theorem chordScanGo_shift :
    ∀ (l : List Char) (st : Option (Nat × List Char)) (i a : Nat),
      chordScanGo (st.map (fun p => (a + p.1, p.2))) (a + i) l =
        (chordScanGo st i l).map (fun m => (a + m.1, m.2))
  | [], st, i, a => by cases st <;> simp [chordScanGo]
  | c :: rest, none, i, a => by
    by_cases hc : c = '['
    · simp only [Option.map_none', chordScanGo, hc, if_pos]
      have := chordScanGo_shift rest (some (i, [])) (i + 1) a
      simp only [Option.map_some'] at this
      rw [show a + i + 1 = a + (i + 1) by omega]
      exact this
    · simp only [Option.map_none', chordScanGo, hc, if_neg, if_false]
      rw [show a + i + 1 = a + (i + 1) by omega]
      exact chordScanGo_shift rest none (i + 1) a
  | c :: rest, some (s, buf), i, a => by
    by_cases hc : c = ']'
    · match buf with
      | [] =>
        simp only [Option.map_some', chordScanGo, hc, if_pos]
        rw [show a + i + 1 = a + (i + 1) by omega]
        exact chordScanGo_shift rest none (i + 1) a
      | b :: bs =>
        simp only [Option.map_some', chordScanGo, hc, if_pos, List.map_cons]
        rw [show a + i + 1 = a + (i + 1) by omega]
        have hrec := chordScanGo_shift rest none (i + 1) a
        simp only [Option.map_none'] at hrec
        rw [hrec]
    · simp only [Option.map_some', chordScanGo, hc, if_neg, if_false]
      have := chordScanGo_shift rest (some (s, c :: buf)) (i + 1) a
      simp only [Option.map_some'] at this
      rw [show a + i + 1 = a + (i + 1) by omega]
      exact this

/-- Building chords from offset-shifted matches shifts every clamped
position by the same amount, provided the matches respect the accumulator. -/
theorem buildChords_shift :
    ∀ (ms : List (Nat × List Char)) (acc a : Nat),
      List.Chain' (fun x y => x.1 + x.2.length + 2 ≤ y.1) ms →
      (∀ x ∈ ms.head?, acc ≤ x.1) →
      (buildChords (ms.map (fun m => (a + m.1, m.2))) acc).map (fun c => c.pos) =
        (buildChords ms acc).map (fun c => c.pos + a)
  | [], _, _, _, _ => by simp [buildChords]
  | (j, sym) :: rest, acc, a, hch, hacc => by
    have hj : acc ≤ j := by simpa using hacc (j, sym) (by simp)
    have hch' := (List.chain'_cons'.mp hch).2
    have hgap := (List.chain'_cons'.mp hch).1
    simp only [List.map_cons, buildChords]
    rw [buildChords_shift rest (acc + sym.length + 2) a hch' ?_]
    · congr 1
      · show a + j - acc = j - acc + a
        omega
    · intro x hx
      have h2 : j + sym.length + 2 ≤ x.1 := by simpa using hgap x hx
      omega

/-- Stripping chords commutes with a bracket-free prefix. -/
theorem stripChordsGo_append_free :
    ∀ (pre l : List Char), (∀ c ∈ pre, ¬ (c = '[')) →
      stripChordsGo none (pre ++ l) = pre ++ stripChordsGo none l
  | [], l, _ => by simp
  | c :: pre', l, h => by
    have hc : ¬ (c = '[') := h c (by simp)
    have hrest : ∀ d ∈ pre', ¬ (d = '[') := fun d hd => h d (by simp [hd])
    simp only [List.cons_append, stripChordsGo, hc, if_neg, if_false, List.append_eq]
    rw [stripChordsGo_append_free pre' l hrest]

/-- The numeric-marker strip removes exactly a digits-dot-whitespace prefix
when the remainder does not begin with whitespace. -/
theorem stripLeadingNumber_marker (ds ws u : List Char)
    (hds : ds ≠ []) (hdig : ∀ c ∈ ds, isAsciiDigit c = true)
    (hws : ∀ c ∈ ws, isSpace c = true)
    (hu : u.dropWhile isSpace = u) :
    stripLeadingNumber (ds ++ '.' :: (ws ++ u)) = u := by
  have htake : (ds ++ '.' :: (ws ++ u)).takeWhile isAsciiDigit = ds := by
    rw [List.takeWhile_append_of_pos hdig, List.takeWhile_cons_of_neg (by decide)]
    simp
  have hdrop : (ds ++ '.' :: (ws ++ u)).drop ds.length = '.' :: (ws ++ u) :=
    List.drop_left ds _
  simp only [stripLeadingNumber, htake, hdrop]
  rw [if_neg (by simpa [List.isEmpty_iff] using hds)]
  rw [List.dropWhile_append_of_pos hws, hu]

/-- Claim C9: when a line begins with a numeric list marker (digits, a dot
and whitespace) and its chord marks lie after the marker, every chord
position is computed before the marker is removed: the returned text is the
marker-free chord-stripped remainder, while every returned `pos` exceeds the
chord's position in that returned text by exactly the removed marker's
length. -/
theorem claim_C9_marker_offset_shift
    (ds ws rest : List Char)
    (hds : ds ≠ [])
    (hdig : ∀ c ∈ ds, isAsciiDigit c = true)
    (hws : ∀ c ∈ ws, isSpace c = true)
    (hrest : (stripChords rest).dropWhile isSpace = stripChords rest)
    (hch : chordScan rest 0 ≠ []) :
    (parse_chord_lineL (ds ++ '.' :: (ws ++ rest))).text = stripChords rest ∧
    (parse_chord_lineL (ds ++ '.' :: (ws ++ rest))).chords.map (fun c => c.pos) =
      (buildChords (chordScan rest 0) 0).map
        (fun c => c.pos + (ds.length + 1 + ws.length)) := by
  have hfree : ∀ c ∈ ds ++ '.' :: ws, ¬ (c = '[') := by
    intro c hc
    simp only [List.mem_append, List.mem_cons] at hc
    rcases hc with hc | hc | hc
    · exact digit_ne_lbracket (hdig c hc)
    · subst hc; decide
    · exact space_ne_lbracket (hws c hc)
  have hassoc : ds ++ '.' :: (ws ++ rest) = (ds ++ '.' :: ws) ++ rest := by simp
  constructor
  · show stripLeadingNumber (stripChords (ds ++ '.' :: (ws ++ rest))) = stripChords rest
    rw [hassoc]
    show stripLeadingNumber (stripChordsGo none ((ds ++ '.' :: ws) ++ rest)) = _
    rw [stripChordsGo_append_free _ _ hfree]
    have : (ds ++ '.' :: ws) ++ stripChordsGo none rest =
        ds ++ '.' :: (ws ++ stripChordsGo none rest) := by simp
    rw [this]
    exact stripLeadingNumber_marker ds ws _ hds hdig hws hrest
  · show (buildChords (chordScan (ds ++ '.' :: (ws ++ rest)) 0) 0).map (fun c => c.pos) = _
    have h1 : chordScan (ds ++ '.' :: (ws ++ rest)) 0 =
        chordScanGo none (ds.length + 1 + ws.length) rest := by
      show chordScanGo none 0 _ = _
      rw [hassoc, chordScanGo_append_free _ _ 0 hfree]
      congr 1
      simp only [List.length_append, List.length_cons]
      omega
    have h2 : chordScanGo none (ds.length + 1 + ws.length) rest =
        (chordScanGo none 0 rest).map
          (fun m => (ds.length + 1 + ws.length + m.1, m.2)) := by
      have := chordScanGo_shift rest none 0 (ds.length + 1 + ws.length)
      simpa using this
    rw [h1, h2]
    exact buildChords_shift (chordScanGo none 0 rest) 0 (ds.length + 1 + ws.length)
      (chordScanGo_chain rest none 0 trivial) (by simp)

/-- Witness for claim C9 at the line `1. [C]Hi`. -/
theorem claim_C9_marker_offset_shift_witness :
    (parse_chord_lineL (['1'] ++ '.' :: ([' '] ++ "[C]Hi".data))).text =
      stripChords ("[C]Hi".data) ∧
    (parse_chord_lineL (['1'] ++ '.' :: ([' '] ++ "[C]Hi".data))).chords.map
        (fun c => c.pos) =
      (buildChords (chordScan ("[C]Hi".data) 0) 0).map
        (fun c => c.pos + (['1'].length + 1 + [' '].length)) :=
  claim_C9_marker_offset_shift ['1'] [' '] ("[C]Hi".data)
    (by decide) (by decide) (by decide) (by decide) (by decide)

theorem startsWithL_head {x : Char} {xs s : List Char}
    (h : startsWithL (x :: xs) s = true) : ∃ t, s = x :: t := by
  match s with
  | [] => simp [startsWithL] at h
  | c :: t =>
    simp only [startsWithL, Bool.and_eq_true, decide_eq_true_eq] at h
    exact ⟨t, by rw [h.1]⟩

/-- A prefix is a prefix of itself followed by anything. -/
theorem startsWithL_append_self :
    ∀ (p rest : List Char), startsWithL p (p ++ rest) = true
  | [], _ => rfl
  | x :: p', rest => by
    simp [startsWithL, startsWithL_append_self p' rest]

/-- A line whose stripped form does not open a brace leaves the emitted
section list unchanged (it is either appended to the open section's content
or ignored). -/
theorem stepLine_plain_sections (st : PState) (l : String)
    (h : startsWithL ("\x7b".data) (pyStripL l.data) = false) :
    (stepLine st l).sections = st.sections := by
  have hc : startsWithL ("\x7bc:".data) (pyStripL l.data) = false := by
    cases hcc : startsWithL ("\x7bc:".data) (pyStripL l.data)
    · rfl
    · obtain ⟨t, ht⟩ := startsWithL_head hcc
      rw [ht] at h
      simp [startsWithL] at h
  have hs : startsWithL ("\x7bstart_of_".data) (pyStripL l.data) = false := by
    cases hcc : startsWithL ("\x7bstart_of_".data) (pyStripL l.data)
    · rfl
    · obtain ⟨t, ht⟩ := startsWithL_head hcc
      rw [ht] at h
      simp [startsWithL] at h
  have he : startsWithL ("\x7bend_of_".data) (pyStripL l.data) = false := by
    cases hcc : startsWithL ("\x7bend_of_".data) (pyStripL l.data)
    · rfl
    · obtain ⟨t, ht⟩ := startsWithL_head hcc
      rw [ht] at h
      simp [startsWithL] at h
  simp only [stepLine, hc, Bool.false_eq_true, if_false, hs, he, h]
  by_cases hin : st.insec = true <;> simp [hin]

/-- Folding any number of plain content lines never emits a section. -/
theorem foldl_plain_sections :
    ∀ (ls : List String) (st : PState),
      (∀ l ∈ ls, startsWithL ("\x7b".data) (pyStripL l.data) = false) →
      (ls.foldl stepLine st).sections = st.sections
  | [], _, _ => rfl
  | l :: ls', st, h => by
    rw [List.foldl_cons, foldl_plain_sections ls' _ (fun x hx => h x (by simp [hx]))]
    exact stepLine_plain_sections st l (h l (by simp))

/-- The stripped form of a start-of-block line is the line itself. -/
theorem pyStripL_start_line (k : String) :
    pyStripL (("\x7bstart_of_" ++ k ++ "\x7d") : String).data =
      ("\x7bstart_of_".data) ++ (k.data ++ ['\x7d']) := by
  have hdata : (("\x7bstart_of_" ++ k ++ "\x7d") : String).data =
      "\x7bstart_of_".data ++ (k.data ++ ['\x7d']) := by
    simp [String.data_append]
  rw [hdata]
  show (((("\x7bstart_of_".data ++ (k.data ++ ['\x7d']))).dropWhile
    isSpace).reverse.dropWhile isSpace).reverse = _
  rw [show ("\x7bstart_of_".data ++ (k.data ++ ['\x7d'])) =
    '\x7b' :: ("start_of_".data ++ k.data ++ ['\x7d']) by simp]
  rw [List.dropWhile_cons_of_neg (by decide)]
  rw [show ('\x7b' :: ("start_of_".data ++ k.data ++ ['\x7d'])).reverse =
    '\x7d' :: (("start_of_".data ++ k.data).reverse ++ ['\x7b']) by simp]
  rw [List.dropWhile_cons_of_neg (by decide)]
  simp

/-- The parse step on a start-of-block line: emit the open section if any,
then open a fresh one. -/
theorem stepLine_start (st : PState) (k : String) :
    stepLine st ("\x7bstart_of_" ++ k ++ "\x7d") =
      { metadata := st.metadata,
        sections :=
          match st.info with
          | some inf =>
            if st.insec then st.sections ++ [mkSection inf st.content] else st.sections
          | none => st.sections,
        label := none,
        content := [],
        info := some (parse_section_info
          ⟨pyStripL ((("\x7bstart_of_".data ++ (k.data ++ ['\x7d'])).drop 10).dropLast)⟩
          st.label),
        insec := true } := by
  have hstrip := pyStripL_start_line k
  have hc : startsWithL ("\x7bc:".data)
      (pyStripL (("\x7bstart_of_" ++ k ++ "\x7d") : String).data) = false := by
    rw [hstrip]
    rw [show ("\x7bstart_of_".data : List Char) ++ (k.data ++ ['\x7d']) =
      '\x7b' :: 's' :: ("tart_of_".data ++ (k.data ++ ['\x7d'])) from rfl]
    simp [startsWithL]
  have hs : startsWithL ("\x7bstart_of_".data)
      (pyStripL (("\x7bstart_of_" ++ k ++ "\x7d") : String).data) = true := by
    rw [hstrip]
    exact startsWithL_append_self _ _
  simp only [stepLine]
  rw [hstrip] at hc hs
  rw [hstrip]
  simp only [hc, Bool.false_eq_true, if_false, hs, if_true]

/-- Claim C4 counterexample: a document that ends inside an open section and
contains no end-of-block directive at all still emits a section — the first
section is emitted when the second start-of-block displaces it, so sections
are not emitted only by explicit end-of-block directives. -/
theorem claim_C4_counterexample :
    ((parse_file "\x7bstart_of_verse\x7d\nA\n\x7bstart_of_chorus\x7d\nB").sections).length
        = 1 ∧
      ∀ l ∈ (splitNl ("\x7bstart_of_verse\x7d\nA\n\x7bstart_of_chorus\x7d\nB").data).map
          String.mk,
        startsWithL ("\x7bend_of_".data) (pyStripL l.data) = false := by
  constructor
  · rfl
  · decide

/-- Claim C4 as amended: a document that ends while a section is still open
does not emit that open section — after a start-of-block directive, trailing
plain content lines never add a section, so the parse of
`pre ++ [start] ++ content` emits exactly the sections of `pre ++ [start]`;
and the start-of-block line itself emits at most the previously open section
(never the newly opened one). -/
theorem claim_C4_open_section_not_emitted
    (pre : List String) (k : String) (content : List String)
    (hplain : ∀ l ∈ content, startsWithL ("\x7b".data) (pyStripL l.data) = false) :
    (parse_file_lines (pre ++ ("\x7bstart_of_" ++ k ++ "\x7d") :: content)).sections =
      (parse_file_lines (pre ++ ["\x7bstart_of_" ++ k ++ "\x7d"])).sections ∧
    (parse_file_lines (pre ++ ["\x7bstart_of_" ++ k ++ "\x7d"])).sections.length ≤
      (parse_file_lines pre).sections.length + 1 := by
  constructor
  · show ((pre ++ ("\x7bstart_of_" ++ k ++ "\x7d") :: content).foldl stepLine
      initState).sections = _
    rw [List.foldl_append]
    rw [show ("\x7bstart_of_" ++ k ++ "\x7d") :: content =
      ["\x7bstart_of_" ++ k ++ "\x7d"] ++ content from rfl]
    rw [List.foldl_append]
    rw [foldl_plain_sections content _ hplain]
    show _ = ((pre ++ ["\x7bstart_of_" ++ k ++ "\x7d"]).foldl stepLine initState).sections
    rw [List.foldl_append]
  · show ((pre ++ ["\x7bstart_of_" ++ k ++ "\x7d"]).foldl stepLine initState).sections.length
      ≤ _
    rw [List.foldl_append]
    simp only [List.foldl_cons, List.foldl_nil]
    rw [stepLine_start]
    show (match (List.foldl stepLine initState pre).info with
      | some inf =>
        if (List.foldl stepLine initState pre).insec = true then
          (List.foldl stepLine initState pre).sections ++
            [mkSection inf (List.foldl stepLine initState pre).content]
        else (List.foldl stepLine initState pre).sections
      | none => (List.foldl stepLine initState pre).sections).length ≤ _
    match (List.foldl stepLine initState pre).info with
    | some inf =>
      by_cases hin : (List.foldl stepLine initState pre).insec = true <;>
        simp [hin, parse_file_lines]
    | none => simp [parse_file_lines]

/-- Witness for claim C4 as amended, opening a verse that is never closed. -/
theorem claim_C4_open_section_not_emitted_witness :
    (parse_file_lines ([] ++ ("\x7bstart_of_" ++ "verse" ++ "\x7d") :: ["A"])).sections =
      (parse_file_lines ([] ++ ["\x7bstart_of_" ++ "verse" ++ "\x7d"])).sections ∧
    (parse_file_lines ([] ++ ["\x7bstart_of_" ++ "verse" ++ "\x7d"])).sections.length ≤
      (parse_file_lines []).sections.length + 1 :=
  claim_C4_open_section_not_emitted [] "verse" ["A"] (by decide)

/-- The first match of a predicate is the element at its first index. -/
theorem find?_of_findIdx? {α : Type} (p : α → Bool) :
    ∀ (l : List α) (k : Nat), l.findIdx? p = some k →
      ∀ d, l.find? p = some (l.getD k d)
  | [], k, h, _ => by simp at h
  | c :: t, k, h, d => by
    by_cases hc : p c = true
    · simp only [List.findIdx?_cons, hc, if_pos] at h
      obtain rfl : (0 : Nat) = k := Option.some.inj h
      simp [List.find?_cons_of_pos _ hc]
    · simp only [List.findIdx?_cons, hc, Bool.false_eq_true, if_neg, if_false,
        List.findIdx?_succ] at h
      match hk : t.findIdx? p with
      | none => rw [hk] at h; simp at h
      | some k' =>
        rw [hk] at h
        simp only [Option.map_some'] at h
        obtain rfl : k' + 1 = k := Option.some.inj h
        rw [List.find?_cons_of_neg _ hc]
        rw [List.getD_cons_succ]
        exact find?_of_findIdx? p t k' hk d

/-- The unique-section accumulator of `dedupGo` is only extended. -/
theorem dedupGo_prefix :
    ∀ (rest uniq : List ChordProSection),
      ∃ ext, (dedupGo uniq rest).1 = uniq ++ ext
  | [], uniq => ⟨[], by simp [dedupGo]⟩
  | s :: r, uniq => by
    simp only [dedupGo]
    match huq : uniq.findIdx?
        (fun u => get_content_hash u == get_content_hash s) with
    | some k => exact dedupGo_prefix r uniq
    | none =>
      obtain ⟨ext, hext⟩ := dedupGo_prefix r (uniq ++ [s])
      exact ⟨[s] ++ ext, by simp only [hext]; simp⟩

/-- The index map has one entry per input section. -/
theorem dedupGo_length :
    ∀ (rest uniq : List ChordProSection),
      (dedupGo uniq rest).2.length = rest.length
  | [], uniq => rfl
  | s :: r, uniq => by
    simp only [dedupGo]
    match huq : uniq.findIdx?
        (fun u => get_content_hash u == get_content_hash s) with
    | some k => simp [dedupGo_length r uniq]
    | none => simp [dedupGo_length r (uniq ++ [s])]

/-- Pointwise description of the index map: entry i is the index of the first
unique section whose content hash matches that of input section i, relative
to the final unique list. -/
theorem dedupGo_index :
    ∀ (rest uniq : List ChordProSection) (i : Nat), i < rest.length →
      (dedupGo uniq rest).1.findIdx?
          (fun u => get_content_hash u ==
            get_content_hash (rest.getD i dfltSection)) =
        some ((dedupGo uniq rest).2.getD i 0)
  | [], _, i, hi => by simp at hi
  | s :: r, uniq, i, hi => by
    simp only [dedupGo]
    match huq : uniq.findIdx?
        (fun u => get_content_hash u == get_content_hash s) with
    | some k =>
      match i with
      | 0 =>
        obtain ⟨ext, hext⟩ := dedupGo_prefix r uniq
        simp only [List.getD_cons_zero, List.getD_cons_zero]
        rw [hext, List.findIdx?_append, huq]
        simp
      | i' + 1 =>
        simp only [List.getD_cons_succ]
        exact dedupGo_index r uniq i' (by simpa using hi)
    | none =>
      match i with
      | 0 =>
        obtain ⟨ext, hext⟩ := dedupGo_prefix r (uniq ++ [s])
        simp only [List.getD_cons_zero, List.getD_cons_zero]
        rw [hext, List.append_assoc, List.findIdx?_append, huq]
        simp only [Option.none_or]
        rw [List.singleton_append, List.findIdx?_cons]
        simp
      | i' + 1 =>
        simp only [List.getD_cons_succ]
        exact dedupGo_index r (uniq ++ [s]) i' (by simpa using hi)

/-- The final unique list's first hash match agrees with the first match in
the accumulator, else with the first input section carrying the hash. -/
theorem dedupGo_find :
    ∀ (rest uniq : List ChordProSection) (h : String),
      (dedupGo uniq rest).1.find? (fun u => get_content_hash u == h) =
        (uniq.find? (fun u => get_content_hash u == h)).or
          (rest.find? (fun s => get_content_hash s == h))
  | [], uniq, h => by simp [dedupGo]
  | s :: r, uniq, h => by
    simp only [dedupGo]
    match huq : uniq.findIdx?
        (fun u => get_content_hash u == get_content_hash s) with
    | some k =>
      rw [dedupGo_find r uniq h]
      by_cases hs : (get_content_hash s == h) = true
      · have hsome : (uniq.find? (fun u => get_content_hash u == h)).isSome := by
          obtain ⟨hk, hpk, -⟩ := List.findIdx?_eq_some_iff_getElem.mp huq
          rw [List.find?_isSome]
          refine ⟨uniq[k], by simp, ?_⟩
          have h1 : get_content_hash uniq[k] = get_content_hash s := by
            simpa using hpk
          have h2 : get_content_hash s = h := by simpa using hs
          simp [h1, h2]
        obtain ⟨u, hu⟩ := Option.isSome_iff_exists.mp hsome
        rw [hu, List.find?_cons_of_pos (p := fun u => get_content_hash u == h) r hs]
        simp [Option.or]
      · rw [List.find?_cons_of_neg (p := fun u => get_content_hash u == h) r hs]
    | none =>
      rw [dedupGo_find r (uniq ++ [s]) h, List.find?_append, Option.or_assoc]
      congr 1
      by_cases hs : (get_content_hash s == h) = true
      · rw [List.find?_cons_of_pos (p := fun u => get_content_hash u == h) r hs]
        simp only [List.find?_singleton, hs, if_pos]
        simp [Option.or]
      · rw [List.find?_cons_of_neg (p := fun u => get_content_hash u == h) r hs]
        simp only [List.find?_singleton, hs]
        simp

/-- Every index of a newly added unique section occurs in the index map. -/
theorem dedupGo_coverage :
    ∀ (rest uniq : List ChordProSection) (kk : Nat),
      uniq.length ≤ kk → kk < (dedupGo uniq rest).1.length →
      kk ∈ (dedupGo uniq rest).2
  | [], uniq, kk, hle, hlt => by
    simp only [dedupGo] at hlt
    omega
  | s :: r, uniq, kk, hle, hlt => by
    simp only [dedupGo] at hlt ⊢
    match huq : uniq.findIdx?
        (fun u => get_content_hash u == get_content_hash s) with
    | some k =>
      simp only [huq] at hlt ⊢
      exact List.mem_cons_of_mem _ (dedupGo_coverage r uniq kk hle hlt)
    | none =>
      simp only [huq] at hlt ⊢
      by_cases hk : kk = uniq.length
      · exact hk ▸ List.mem_cons_self _ _
      · refine List.mem_cons_of_mem _ (dedupGo_coverage r (uniq ++ [s]) kk ?_ hlt)
        simp only [List.length_append, List.length_singleton]
        omega

/-- Every index-map entry addresses the final unique list. -/
theorem dedupGo_bound :
    ∀ (rest uniq : List ChordProSection) (i : Nat),
      i ∈ (dedupGo uniq rest).2 → i < (dedupGo uniq rest).1.length
  | [], _, i, hi => by simp [dedupGo] at hi
  | s :: r, uniq, i, hi => by
    simp only [dedupGo] at hi ⊢
    match huq : uniq.findIdx?
        (fun u => get_content_hash u == get_content_hash s) with
    | some k =>
      simp only [huq] at hi ⊢
      rcases List.mem_cons.mp hi with hik | hik
      · subst hik
        obtain ⟨hk, -, -⟩ := List.findIdx?_eq_some_iff_getElem.mp huq
        obtain ⟨ext, hext⟩ := dedupGo_prefix r uniq
        rw [hext]
        simp only [List.length_append]
        omega
      · exact dedupGo_bound r uniq i hik
    | none =>
      simp only [huq] at hi ⊢
      rcases List.mem_cons.mp hi with hik | hik
      · subst hik
        obtain ⟨ext, hext⟩ := dedupGo_prefix r (uniq ++ [s])
        rw [hext]
        simp only [List.length_append, List.length_singleton]
        omega
      · exact dedupGo_bound r (uniq ++ [s]) i hik

/-- The k-th slide id generated from base index i. -/
theorem mkSlideIds_getD :
    ∀ (t : List ChordProSection) (i k : Nat), k < t.length →
      (mkSlideIds i t).getD k dfltSlideId =
        ((t.getD k dfltSection).type, i + k, (t.getD k dfltSection).raw_content)
  | [], _, k, hk => by simp at hk
  | s :: t', i, 0, _ => by simp [mkSlideIds]
  | s :: t', i, k + 1, hk => by
    simp only [mkSlideIds, List.getD_cons_succ]
    rw [mkSlideIds_getD t' (i + 1) k (by simpa using hk)]
    congr 2
    omega

/-- Each slide entry comes from a unique section at its enumeration index. -/
theorem mkSlides_mem :
    ∀ (t : List ChordProSection) (fixp : Bool) (i : Nat)
      (p : SlideId × SlideRec), p ∈ mkSlides fixp i t →
      ∃ k, k < t.length ∧
        p.1 = ((t.getD k dfltSection).type, i + k, (t.getD k dfltSection).raw_content)
  | [], _, _, p, hp => by simp [mkSlides] at hp
  | s :: t', fixp, i, p, hp => by
    simp only [mkSlides, List.mem_cons] at hp
    rcases hp with hp | hp
    · exact ⟨0, by simp, by simp [hp]⟩
    · obtain ⟨k, hk, hk2⟩ := mkSlides_mem t' fixp (i + 1) p hp
      refine ⟨k + 1, by simpa using hk, ?_⟩
      rw [hk2]
      simp only [List.getD_cons_succ]
      congr 2
      omega

/-- Looking a generated slide id up in the generated slides mapping returns
the corresponding unique section's slide. -/
theorem mkSlides_lookup :
    ∀ (t : List ChordProSection) (fixp : Bool) (i k : Nat), k < t.length →
      lookupAssoc (mkSlides fixp i t)
          ((t.getD k dfltSection).type, i + k, (t.getD k dfltSection).raw_content) =
        some (mkSlide fixp (t.getD k dfltSection))
  | [], _, _, k, hk => by simp at hk
  | s :: t', fixp, i, 0, _ => by
    simp [mkSlides, lookupAssoc]
  | s :: t', fixp, i, k + 1, hk => by
    simp only [mkSlides, lookupAssoc, List.getD_cons_succ]
    rw [if_neg ?_]
    · rw [show i + (k + 1) = (i + 1) + k by omega]
      exact mkSlides_lookup t' fixp (i + 1) k (by simpa using hk)
    · intro heq
      have : i = i + (k + 1) := congrArg (fun q => q.2.1) heq
      omega

/-- Claim C5: for every section list, the index map has the input's length;
two inputs with equal content hash receive the same unique index; and the
unique section stored at that index is the first-occurring input section
with that hash. -/
theorem claim_C5_deduplicate_sections :
    ∀ sections : List ChordProSection,
      (deduplicate_sections sections).2.length = sections.length ∧
      (∀ i j, i < sections.length → j < sections.length →
        get_content_hash (sections.getD i dfltSection) =
          get_content_hash (sections.getD j dfltSection) →
        (deduplicate_sections sections).2.getD i 0 =
          (deduplicate_sections sections).2.getD j 0) ∧
      (∀ i, i < sections.length →
        (deduplicate_sections sections).2.getD i 0 <
            (deduplicate_sections sections).1.length ∧
        some ((deduplicate_sections sections).1.getD
            ((deduplicate_sections sections).2.getD i 0) dfltSection) =
          sections.find? (fun t => get_content_hash t ==
            get_content_hash (sections.getD i dfltSection))) := by
  intro sections
  refine ⟨dedupGo_length sections [], ?_, ?_⟩
  · intro i j hi hj hh
    have h1 := dedupGo_index sections [] i hi
    have h2 := dedupGo_index sections [] j hj
    rw [hh] at h1
    rw [h1] at h2
    exact Option.some.inj h2
  · intro i hi
    have h1 := dedupGo_index sections [] i hi
    constructor
    · obtain ⟨hk, -, -⟩ := List.findIdx?_eq_some_iff_getElem.mp h1
      exact hk
    · have h2 := find?_of_findIdx? _ _ _ h1 dfltSection
      have h3 := dedupGo_find sections [] (get_content_hash (sections.getD i dfltSection))
      simp only [List.find?_nil, Option.none_or] at h3
      rw [← h3, h2]
      rfl

/-- Witness for claim C5 on a two-section list with equal hashes. -/
theorem claim_C5_deduplicate_sections_witness :
    (deduplicate_sections [⟨"A", "verse", none, ["X"], "X"⟩,
        ⟨"B", "chorus", none, ["X"], "X"⟩]).2.getD 0 0 =
      (deduplicate_sections [⟨"A", "verse", none, ["X"], "X"⟩,
        ⟨"B", "chorus", none, ["X"], "X"⟩]).2.getD 1 0 ∧
    some ((deduplicate_sections [⟨"A", "verse", none, ["X"], "X"⟩,
        ⟨"B", "chorus", none, ["X"], "X"⟩]).1.getD
        ((deduplicate_sections [⟨"A", "verse", none, ["X"], "X"⟩,
          ⟨"B", "chorus", none, ["X"], "X"⟩]).2.getD 1 0) dfltSection) =
      ([⟨"A", "verse", none, ["X"], "X"⟩,
        ⟨"B", "chorus", none, ["X"], "X"⟩] : List ChordProSection).find?
          (fun t => get_content_hash t == get_content_hash
            (([⟨"A", "verse", none, ["X"], "X"⟩,
              ⟨"B", "chorus", none, ["X"], "X"⟩] : List ChordProSection).getD 1
              dfltSection)) :=
  ⟨(claim_C5_deduplicate_sections _).2.1 0 1 (by decide) (by decide) (by decide),
   ((claim_C5_deduplicate_sections _).2.2 1 (by decide)).2⟩

/-- Claim C6: sections whose content lines agree after removing comment-label
lines hash identically; in particular the two-section scenario with an
inserted comment line deduplicates to one unique section with index map
`[0, 0]`. -/
theorem claim_C6_content_hash_ignores_comments :
    (∀ s t : ChordProSection,
      s.content.filter (fun l => !(startsWithL ("\x7bc:".data) (pyStripL l.data))) =
        t.content.filter (fun l => !(startsWithL ("\x7bc:".data) (pyStripL l.data))) →
      get_content_hash s = get_content_hash t) ∧
    get_content_hash ⟨"A", "verse", none, ["Line 1", "Line 2"], "Line 1\nLine 2"⟩ =
      get_content_hash ⟨"B", "verse", none, ["Line 1", "\x7bc: X\x7d", "Line 2"],
        "Line 1\n\x7bc: X\x7d\nLine 2"⟩ ∧
    deduplicate_sections
        [⟨"A", "verse", none, ["Line 1", "Line 2"], "Line 1\nLine 2"⟩,
         ⟨"B", "verse", none, ["Line 1", "\x7bc: X\x7d", "Line 2"],
          "Line 1\n\x7bc: X\x7d\nLine 2"⟩] =
      ([⟨"A", "verse", none, ["Line 1", "Line 2"], "Line 1\nLine 2"⟩], [0, 0]) := by
  refine ⟨?_, by decide, by decide⟩
  intro s t h
  show String.intercalate "\n" _ = String.intercalate "\n" _
  rw [h]

/-- Witness for claim C6 at the two-section scenario of the specification. -/
theorem claim_C6_content_hash_ignores_comments_witness :
    get_content_hash ⟨"A", "verse", none, ["Line 1", "Line 2"], "Line 1\nLine 2"⟩ =
      get_content_hash ⟨"C", "chorus", some "2", ["Line 1", "Line 2"], "Line 1\nLine 2"⟩ :=
  (claim_C6_content_hash_ignores_comments).1
    ⟨"A", "verse", none, ["Line 1", "Line 2"], "Line 1\nLine 2"⟩
    ⟨"C", "chorus", some "2", ["Line 1", "Line 2"], "Line 1\nLine 2"⟩ (by decide)

/-- The slides of a deduplicating deck build. -/
theorem buildDeck_slides (fixp : Bool) (filename : String)
    (md : List (String × String)) (sections : List ChordProSection) :
    (buildDeck true fixp filename md sections).slides =
      mkSlides fixp 0 (deduplicate_sections sections).1 := rfl

/-- The layout of a deduplicating deck build replays the index map through
the generated slide ids. -/
theorem buildDeck_layout (fixp : Bool) (filename : String)
    (md : List (String × String)) (sections : List ChordProSection) :
    (buildDeck true fixp filename md sections).layoutSlides =
      (deduplicate_sections sections).2.map
        (fun k => (mkSlideIds 0 (deduplicate_sections sections).1).getD k
          dfltSlideId) := rfl

/-- Claim C10: every unique-section index occurs in the index map, and hence
every slide stored in the deck is referenced by its layout — the deck never
contains an orphan slide. -/
theorem claim_C10_no_orphan_slides :
    ∀ (sections : List ChordProSection) (md : List (String × String))
      (filename : String) (fixp : Bool),
      (∀ kk, kk < (deduplicate_sections sections).1.length →
        kk ∈ (deduplicate_sections sections).2) ∧
      (∀ p ∈ (buildDeck true fixp filename md sections).slides,
        p.1 ∈ (buildDeck true fixp filename md sections).layoutSlides) := by
  intro sections md filename fixp
  constructor
  · intro kk hk
    exact dedupGo_coverage sections [] kk (Nat.zero_le _) hk
  · intro p hp
    rw [buildDeck_slides] at hp
    obtain ⟨k, hk, hid⟩ := mkSlides_mem _ fixp 0 p hp
    rw [buildDeck_layout]
    refine List.mem_map.mpr ⟨k, ?_, ?_⟩
    · exact dedupGo_coverage sections [] k (Nat.zero_le _) hk
    · rw [mkSlideIds_getD _ 0 k hk]
      exact hid.symm

/-- Witness for claim C10 on a one-section deck. -/
theorem claim_C10_no_orphan_slides_witness :
    (0 ∈ (deduplicate_sections [⟨"A", "verse", none, ["X"], "X"⟩]).2) ∧
    (("verse", 0, "X"),
        mkSlide true (⟨"A", "verse", none, ["X"], "X"⟩ : ChordProSection)).1 ∈
      (buildDeck true true "f" [] [⟨"A", "verse", none, ["X"], "X"⟩]).layoutSlides :=
  ⟨(claim_C10_no_orphan_slides [⟨"A", "verse", none, ["X"], "X"⟩] [] "f" true).1 0
      (by decide),
   (claim_C10_no_orphan_slides [⟨"A", "verse", none, ["X"], "X"⟩] [] "f" true).2
      (("verse", 0, "X"), mkSlide true ⟨"A", "verse", none, ["X"], "X"⟩)
      (by decide)⟩

/-- Lists of equal length agreeing at every in-range default-indexed
position are equal. -/
theorem ext_getD {α : Type} (d : α) :
    ∀ (l1 l2 : List α), l1.length = l2.length →
      (∀ n, n < l1.length → l1.getD n d = l2.getD n d) → l1 = l2
  | [], [], _, _ => rfl
  | [], _ :: _, hl, _ => by simp at hl
  | _ :: _, [], hl, _ => by simp at hl
  | a :: l1, b :: l2, hl, h => by
    have hab : a = b := h 0 (by simp)
    have htail : l1 = l2 := by
      refine ext_getD d l1 l2 (by simpa using hl) ?_
      intro n hn
      have := h (n + 1) (by simpa using hn)
      simpa using this
    rw [hab, htail]

/-- Indexing a mapped list with defaults, in range. -/
theorem map_getD {α β : Type} (f : α → β) :
    ∀ (l : List α) (n : Nat) (d' : β) (d : α), n < l.length →
      (l.map f).getD n d' = f (l.getD n d)
  | [], n, _, _, hn => by simp at hn
  | a :: l, 0, _, _, _ => by simp
  | a :: l, n + 1, d', d, hn => by
    simp only [List.map_cons, List.getD_cons_succ]
    exact map_getD f l n d' d (by simpa using hn)

/-- Claim C1 counterexample: a document declaring a verse and a chorus with
identical content lines deduplicates them into one slide, and replaying the
layout yields the first-seen type at both positions — not the declared
per-position type sequence. -/
theorem claim_C1_counterexample :
    replayTypes (buildDeck true true "f"
        (parse_file ("\x7bstart_of_verse\x7d\nX\n\x7bend_of_verse\x7d\n" ++
          "\x7bstart_of_chorus\x7d\nX\n\x7bend_of_chorus\x7d")).metadata
        (parse_file ("\x7bstart_of_verse\x7d\nX\n\x7bend_of_verse\x7d\n" ++
          "\x7bstart_of_chorus\x7d\nX\n\x7bend_of_chorus\x7d")).sections) ≠
      (parse_file ("\x7bstart_of_verse\x7d\nX\n\x7bend_of_verse\x7d\n" ++
        "\x7bstart_of_chorus\x7d\nX\n\x7bend_of_chorus\x7d")).sections.map
        (fun s => s.type) := by
  decide

/-- Claim C1 as amended: the layout has one entry per original section, and
replaying it through the slides container yields, at every original
position, the canonical type of the first-occurring section whose content
hash matches that position's section; when equal-content sections always
declare equal types this is exactly the declared per-position type
sequence. -/
theorem claim_C1_layout_replay :
    ∀ (sections : List ChordProSection) (md : List (String × String))
      (filename : String) (fixp : Bool),
      (buildDeck true fixp filename md sections).layoutSlides.length =
          sections.length ∧
      replayTypes (buildDeck true fixp filename md sections) =
        sections.map (fun s =>
          ((sections.find? (fun t => get_content_hash t == get_content_hash s)).map
            (fun t => t.type)).getD "") ∧
      ((∀ s ∈ sections, ∀ t ∈ sections,
          get_content_hash s = get_content_hash t → s.type = t.type) →
        replayTypes (buildDeck true fixp filename md sections) =
          sections.map (fun s => s.type)) := by
  intro sections md filename fixp
  have hMlen : (deduplicate_sections sections).2.length = sections.length :=
    dedupGo_length sections []
  have hlen : (buildDeck true fixp filename md sections).layoutSlides.length =
      sections.length := by
    rw [buildDeck_layout, List.length_map]
    exact hMlen
  have hmain : replayTypes (buildDeck true fixp filename md sections) =
      sections.map (fun s =>
        ((sections.find? (fun t => get_content_hash t == get_content_hash s)).map
          (fun t => t.type)).getD "") := by
    apply ext_getD ""
    · simp only [replayTypes, List.length_map]
      exact hlen
    · intro n hn'
      have hn : n < sections.length := by
        simp only [replayTypes, List.length_map] at hn'
        rw [hlen] at hn'
        exact hn'
      have hnM : n < (deduplicate_sections sections).2.length := by
        rw [hMlen]
        exact hn
      have hidx := dedupGo_index sections [] n hn
      have hbound : (deduplicate_sections sections).2.getD n 0 <
          (deduplicate_sections sections).1.length := by
        obtain ⟨hk, -, -⟩ := List.findIdx?_eq_some_iff_getElem.mp hidx
        exact hk
      have hfind := find?_of_findIdx? _ _ _ hidx dfltSection
      have hglobal := dedupGo_find sections []
        (get_content_hash (sections.getD n dfltSection))
      simp only [List.find?_nil, Option.none_or] at hglobal
      simp only [replayTypes]
      rw [map_getD _ _ n "" dfltSlideId (by rw [hlen]; exact hn)]
      rw [buildDeck_layout, buildDeck_slides]
      rw [map_getD _ _ n dfltSlideId 0 hnM]
      rw [mkSlideIds_getD _ 0 _ hbound]
      rw [mkSlides_lookup _ fixp 0 _ hbound]
      rw [map_getD _ _ n "" dfltSection hn]
      rw [← hglobal, hfind]
      simp only [mkSlide, Option.map_some', Option.getD_some]
      rfl
  refine ⟨hlen, hmain, ?_⟩
  intro hyp
  rw [hmain]
  apply List.map_congr_left
  intro s hs
  have hsome : (sections.find?
      (fun t => get_content_hash t == get_content_hash s)).isSome := by
    rw [List.find?_isSome]
    exact ⟨s, hs, by simp⟩
  obtain ⟨t, ht⟩ := Option.isSome_iff_exists.mp hsome
  have htmem := List.mem_of_find?_eq_some ht
  have hth : get_content_hash t = get_content_hash s := by
    have := List.find?_some ht
    simpa using this
  rw [ht]
  simp only [Option.map_some', Option.getD_some]
  exact hyp t htmem s hs hth

/-- Witness for claim C1 as amended on two distinct-content sections, where
the hash-compatibility hypothesis holds and the replay is the declared type
sequence. -/
theorem claim_C1_layout_replay_witness :
    replayTypes (buildDeck true true "f" []
        [⟨"A", "verse", none, ["X"], "X"⟩, ⟨"B", "chorus", none, ["Y"], "Y"⟩]) =
      ([⟨"A", "verse", none, ["X"], "X"⟩,
        ⟨"B", "chorus", none, ["Y"], "Y"⟩] : List ChordProSection).map
        (fun s => s.type) :=
  (claim_C1_layout_replay
    [⟨"A", "verse", none, ["X"], "X"⟩, ⟨"B", "chorus", none, ["Y"], "Y"⟩]
    [] "f" true).2.2 (by decide)

/-- Claim C7: block keyword `chorus` with label `Refrain 2` resolves to the
canonical type `chorus` with ordinal `2` and keeps the label as the name;
in general a supplied label becomes the returned name, and when no table key
occurs in the label's lookup text the canonical type falls back to the raw
block keyword. -/
theorem claim_C7_section_type_resolution :
    parse_section_info "chorus" (some "Refrain 2") =
      { name := "Refrain 2", type := "chorus", number := some "2" } ∧
    (∀ bt lab : String, lab ≠ "" →
      (parse_section_info bt (some lab)).name = lab) ∧
    (∀ bt lab : String,
      (∀ kv ∈ label_to_type_map, containsL kv.1.data (lookup_text lab) = false) →
      (parse_section_info bt (some lab)).type = bt) := by
  refine ⟨by decide, ?_, ?_⟩
  · intro bt lab hlab
    simp [parse_section_info, hlab]
  · intro bt lab h
    by_cases hlab : lab = ""
    · simp [parse_section_info, hlab]
    · have hnone : label_to_type_map.find?
          (fun kv => containsL kv.1.data (lookup_text lab)) = none := by
        rw [List.find?_eq_none]
        intro kv hkv
        simp [h kv hkv]
      simp [parse_section_info, hlab, hnone]

/-- Witness for claim C7: an unmapped label falls back to the raw keyword,
and a supplied (non-empty) label becomes the name. -/
theorem claim_C7_section_type_resolution_witness :
    (parse_section_info "zzz" (some "xyz")).type = "zzz" ∧
    (parse_section_info "verse" (some "Refrain 2")).name = "Refrain 2" :=
  ⟨(claim_C7_section_type_resolution).2.2 "zzz" "xyz" (by decide),
   (claim_C7_section_type_resolution).2.1 "verse" "Refrain 2" (by decide)⟩

/-- Claim C8: a document whose parse yields no sections builds a deck with an
empty slides mapping and an empty layout, while every meta field is still
populated from the directive map (title defaulting to the file name, with
the punctuation fix applied to the free-text fields when configured). -/
theorem claim_C8_empty_document_deck :
    ∀ (lines : List String) (filename : String) (fixp : Bool),
      (parse_file_lines lines).sections = [] →
      (buildDeck true fixp filename (parse_file_lines lines).metadata
          (parse_file_lines lines).sections).slides = [] ∧
      (buildDeck true fixp filename (parse_file_lines lines).metadata
          (parse_file_lines lines).sections).layoutSlides = [] ∧
      (buildDeck true fixp filename (parse_file_lines lines).metadata
          (parse_file_lines lines).sections).meta_title =
        (if fixp then fix_french_punctuation
            ((lookupAssoc (parse_file_lines lines).metadata "title").getD filename)
          else (lookupAssoc (parse_file_lines lines).metadata "title").getD filename) ∧
      (buildDeck true fixp filename (parse_file_lines lines).metadata
          (parse_file_lines lines).sections).meta_number =
        (lookupAssoc (parse_file_lines lines).metadata "number").getD "" ∧
      (buildDeck true fixp filename (parse_file_lines lines).metadata
          (parse_file_lines lines).sections).meta_author =
        (if fixp then fix_french_punctuation
            ((lookupAssoc (parse_file_lines lines).metadata "lyricist").getD "")
          else (lookupAssoc (parse_file_lines lines).metadata "lyricist").getD "") ∧
      (buildDeck true fixp filename (parse_file_lines lines).metadata
          (parse_file_lines lines).sections).meta_composer =
        (if fixp then fix_french_punctuation
            ((lookupAssoc (parse_file_lines lines).metadata "composer").getD "")
          else (lookupAssoc (parse_file_lines lines).metadata "composer").getD "") ∧
      (buildDeck true fixp filename (parse_file_lines lines).metadata
          (parse_file_lines lines).sections).meta_copyright =
        (if fixp then fix_french_punctuation
            ((lookupAssoc (parse_file_lines lines).metadata "copyright").getD "")
          else (lookupAssoc (parse_file_lines lines).metadata "copyright").getD "") ∧
      (buildDeck true fixp filename (parse_file_lines lines).metadata
          (parse_file_lines lines).sections).meta_year =
        (lookupAssoc (parse_file_lines lines).metadata "year").getD "" ∧
      (buildDeck true fixp filename (parse_file_lines lines).metadata
          (parse_file_lines lines).sections).meta_key =
        (lookupAssoc (parse_file_lines lines).metadata "key").getD "" := by
  intro lines filename fixp h
  rw [h]
  exact ⟨rfl, rfl, rfl, rfl, rfl, rfl, rfl, rfl, rfl⟩

/-- Witness for claim C8 on a two-directive, section-free document. -/
theorem claim_C8_empty_document_deck_witness :
    (buildDeck true true "f"
        (parse_file_lines ["\x7btitle: Foo\x7d", "\x7bnumber: 12\x7d"]).metadata
        (parse_file_lines ["\x7btitle: Foo\x7d", "\x7bnumber: 12\x7d"]).sections).slides
        = [] ∧
    (buildDeck true true "f"
        (parse_file_lines ["\x7btitle: Foo\x7d", "\x7bnumber: 12\x7d"]).metadata
        (parse_file_lines
          ["\x7btitle: Foo\x7d", "\x7bnumber: 12\x7d"]).sections).layoutSlides
        = [] ∧
    (buildDeck true true "f"
        (parse_file_lines ["\x7btitle: Foo\x7d", "\x7bnumber: 12\x7d"]).metadata
        (parse_file_lines ["\x7btitle: Foo\x7d", "\x7bnumber: 12\x7d"]).sections).meta_title
        = (if true then fix_french_punctuation
            ((lookupAssoc (parse_file_lines
              ["\x7btitle: Foo\x7d", "\x7bnumber: 12\x7d"]).metadata "title").getD "f")
          else (lookupAssoc (parse_file_lines
            ["\x7btitle: Foo\x7d", "\x7bnumber: 12\x7d"]).metadata "title").getD "f") ∧
    (buildDeck true true "f"
        (parse_file_lines ["\x7btitle: Foo\x7d", "\x7bnumber: 12\x7d"]).metadata
        (parse_file_lines
          ["\x7btitle: Foo\x7d", "\x7bnumber: 12\x7d"]).sections).meta_number
        = (lookupAssoc (parse_file_lines
            ["\x7btitle: Foo\x7d", "\x7bnumber: 12\x7d"]).metadata "number").getD "" :=
  ⟨(claim_C8_empty_document_deck ["\x7btitle: Foo\x7d", "\x7bnumber: 12\x7d"] "f" true
      (by decide)).1,
   (claim_C8_empty_document_deck ["\x7btitle: Foo\x7d", "\x7bnumber: 12\x7d"] "f" true
      (by decide)).2.1,
   (claim_C8_empty_document_deck ["\x7btitle: Foo\x7d", "\x7bnumber: 12\x7d"] "f" true
      (by decide)).2.2.1,
   (claim_C8_empty_document_deck ["\x7btitle: Foo\x7d", "\x7bnumber: 12\x7d"] "f" true
      (by decide)).2.2.2.1⟩
